import Mathlib

/-!
Shallow embedding of the async-generator stream-multiplexing program
(`code.py`): the bridging helpers `wrap_aiter`, `unwrap_aiter` and
`syncgenerator`, the input relay `read_input_line` / `read_input_lines`,
the scheduler `gather_processors`, and the example processor
`exclaim_async_iterable`.

Modelling conventions, traced from the source:

* A processor body composed with its input iterable is represented as a
  state machine `Body σ V ω`: from each resumption point the generator
  runs until it next interacts with its driver, so one `BStep` records
  the finite list of values it yields (`StopIteration` per element at
  the driver level) followed by either a request for the next input
  element (`await` of the `__anext__` of the input iterator), a `return`
  (`StopAsyncIteration`), or an uncaught exception.
* Python values fed by the scheduler are `PyVal V`: the literal `None`
  placed at the front of the feed, the per-run `sentinel` object
  (identity comparison becomes constructor equality, sound because the
  sentinel is freshly allocated and so never identical to any input),
  or a data value `pval v`.
* A coroutine that keeps consuming `None` / end-of-stream answers
  forever diverges in Python as well; those unwinding loops take fuel
  and return `Option.none` when the fuel runs out.
-/

namespace AsyncGenFun

/-- Values that flow through the scheduler: Python `None`, the per-run
sentinel object, or a real data token. -/
inductive PyVal (V : Type) where
  | pnull : PyVal V
  | psent : PyVal V
  | pval (v : V) : PyVal V
deriving DecidableEq

/-- Boolean test for the sentinel (Python `line is sentinel`). -/
def isSent {V : Type} : PyVal V → Bool
  | .psent => true
  | _ => false

/-- One driver-visible segment of a processor body: the outputs it
yields before its next interaction, and that interaction. `read`
corresponds to awaiting the next element of the input iterable (`async
for` step), `done` to the generator returning (`StopAsyncIteration`),
`raise` to an uncaught exception.  The continuation of `read` receives
`some t` when the input iterable yields the value `t` and `none` when
the input iterable is exhausted (`StopAsyncIteration` from it). -/
inductive BStep (σ V ω : Type) where
  | read (ws : List ω) (k : Option (PyVal V) → σ) : BStep σ V ω
  | done (ws : List ω) : BStep σ V ω
  | raise (ws : List ω) (e : String) : BStep σ V ω

/-- A processor body (`async def body(async_iterable)`), abstracted over
the mechanics of its input iterable: a state machine over states `σ`,
input elements `PyVal V` and output values `ω`. -/
structure Body (σ V ω : Type) where
  step : σ → BStep σ V ω

/-- Advance a body whose input iterable has already terminated: every
further `__anext__` of the input raises `StopAsyncIteration`
immediately (no suspension), so each `read` resolves to `none` at once.
This is the situation after `read_input_lines` has returned (sentinel
received) or after `wrap_aiter` has exhausted its list.  Fueled, since
a body may loop on such reads forever (it would in Python too);
`Option.none` marks divergence. -/
def runExhausted {σ V ω : Type} (b : Body σ V ω) : Nat → σ → Option (List ω × Option String)
  | 0, _ => Option.none
  | fuel+1, s =>
    match b.step s with
    | .read ws k =>
      match runExhausted b fuel (k Option.none) with
      | Option.none => Option.none
      | Option.some r => Option.some (ws ++ r.1, r.2)
    | .done ws => Option.some (ws, Option.none)
    | .raise ws e => Option.some (ws, Option.some e)

/-- Driver-level state of `gens[i]` in `gather_processors`: the
coroutine of the composed generator `p(read_input_lines(sentinel))`.
`unstarted` is a freshly created `__anext__` coroutine that has never
been sent a value (the body is at state `s`); `waiting` is a coroutine
suspended at the single `yield None` inside
`read_input_line.__await__`, i.e. the relay is waiting for the next
token; `dead` means `StopAsyncIteration` was observed (`gens[i] =
None` in the source). -/
inductive GS (σ V : Type) where
  | unstarted (s : σ) : GS σ V
  | waiting (k : Option (PyVal V) → σ) : GS σ V
  | dead : GS σ V

/-- Scheduler-side record for one processor: its coroutine state plus
the instrumentation log of every value delivered as the resumption of
an await (one entry per `send` that resumed `read_input_line`). -/
structure PSt (σ V : Type) where
  gs : GS σ V
  log : List (PyVal V)

/-- Event key: (position of the token in the effective feed,
registration index of the processor, emission index within that
turn of that processor on that token). -/
abbrev EvKey : Type := Nat × Nat × Nat

/-- Error report: feed position and processor index where the uncaught
exception surfaced, and its message. -/
abbrev PyErr : Type := Nat × Nat × String

/-- Deliver one token of the effective feed to one processor: the body
of the inner `while True` loop of `gather_processors`, collapsed to the
events it yields and the resulting coroutine state.

* `dead` processors are skipped (`if gens[i] is None: continue`).
* An `unstarted` coroutine must be started with `None` (CPython raises
  `TypeError` when a non-`None` value is sent to a just-created
  coroutine); starting it runs the body to its first suspension,
  yielding its initial outputs along the way (each one a
  `StopIteration` caught by the scheduler, followed by `send(None)` to
  the next `__anext__`).
* A `waiting` coroutine resumes inside `read_input_lines`: a sentinel
  makes the relay return, so the body sees end-of-input (`k none`) and
  is driven with the relay exhausted; any other value is yielded by the
  relay to the body unchanged (`k (some t)`).

Event payloads are read in the source as `exn.args[0]`, so a processor
output that is the Python value `None` would abort the real run with an
`IndexError` at that point; this model carries such an output as an
ordinary event instead.  The collapse only admits extra model runs
(every real run free of `None` outputs is modelled exactly, and a real
crashed run is a truncation of its model run), so the invariant,
ordering and log properties proved below hold a fortiori of the real
scheduler. -/
def deliverOne {σ V ω : Type} (b : Body σ V ω) (fuel : Nat) (t : PyVal V) (ps : PSt σ V) :
    Option (List ω × PSt σ V × Option String) :=
  match ps.gs with
  | .dead => Option.some ([], ps, Option.none)
  | .unstarted s =>
    match t with
    | .pnull =>
      match b.step s with
      | .read ws k => Option.some (ws, ⟨.waiting k, ps.log⟩, Option.none)
      | .done ws => Option.some (ws, ⟨.dead, ps.log⟩, Option.none)
      | .raise ws e => Option.some (ws, ⟨.dead, ps.log⟩, Option.some e)
    | _ => Option.some ([], ⟨.dead, ps.log⟩, Option.some "TypeError")
  | .waiting k =>
    match t with
    | .psent =>
      match runExhausted b fuel (k Option.none) with
      | Option.none => Option.none
      | Option.some r => Option.some (r.1, ⟨.dead, ps.log ++ [PyVal.psent]⟩, r.2)
    | _ =>
      match b.step (k (Option.some t)) with
      | .read ws k2 => Option.some (ws, ⟨.waiting k2, ps.log ++ [t]⟩, Option.none)
      | .done ws => Option.some (ws, ⟨.dead, ps.log ++ [t]⟩, Option.none)
      | .raise ws e => Option.some (ws, ⟨.dead, ps.log ++ [t]⟩, Option.some e)

/-- Deliver the token at feed position `p` to every processor from
registration index `i` on (`for i in range(len(processors))`), tagging
each yielded value with its event key.  On an uncaught exception the
iteration aborts at once: processors after the raiser are left
untouched and their tokens undelivered. -/
def stepToken {σ V ω : Type} (b : Body σ V ω) (fuel : Nat) (p : Nat) (t : PyVal V) :
    Nat → List (PSt σ V) → Option (List (EvKey × ω) × List (PSt σ V) × Option PyErr)
  | _, [] => Option.some ([], [], Option.none)
  | i, ps :: rest =>
    match deliverOne b fuel t ps with
    | Option.none => Option.none
    | Option.some (ws, ps2, oerr) =>
      match oerr with
      | Option.some e =>
        Option.some (ws.enum.map (fun jw => ((p, i, jw.1), jw.2)), ps2 :: rest,
          Option.some (p, i, e))
      | Option.none =>
        match stepToken b fuel p t (i+1) rest with
        | Option.none => Option.none
        | Option.some (evs2, rest2, oerr2) =>
          Option.some (ws.enum.map (fun jw => ((p, i, jw.1), jw.2)) ++ evs2,
            ps2 :: rest2, oerr2)

/-- The outer loop of `gather_processors` (`for line in iterable`),
over the tokens of the effective feed starting at feed position `p`.
On an uncaught exception the remaining tokens are not processed; the
events already yielded are kept. -/
def runFeed {σ V ω : Type} (b : Body σ V ω) (fuel : Nat) :
    Nat → List (PyVal V) → List (PSt σ V) →
    Option (List (EvKey × ω) × List (PSt σ V) × Option PyErr)
  | _, [], sts => Option.some ([], sts, Option.none)
  | p, t :: ts, sts =>
    match stepToken b fuel p t 0 sts with
    | Option.none => Option.none
    | Option.some (evs, sts2, oerr) =>
      match oerr with
      | Option.some e => Option.some (evs, sts2, Option.some e)
      | Option.none =>
        match runFeed b fuel (p+1) ts sts2 with
        | Option.none => Option.none
        | Option.some (evs2, sts3, oerr2) =>
          Option.some (evs ++ evs2, sts3, oerr2)

/-- `itertools.chain` on three lists. -/
def pyChain {α : Type} (a b c : List α) : List α := a ++ b ++ c

/-- The effective feed: `itertools.chain([None], iterable, [sentinel])`. -/
def feed {V : Type} (inputs : List V) : List (PyVal V) :=
  pyChain [PyVal.pnull] (inputs.map PyVal.pval) [PyVal.psent]

/-- The sequence of values a processor that stays live for a whole run
has delivered to its awaits: every input in order, then the sentinel. -/
def fullLog {V : Type} (inputs : List V) : List (PyVal V) :=
  inputs.map PyVal.pval ++ [PyVal.psent]

/-- Initial scheduler record for one processor: the first `__anext__`
coroutine, never yet sent a value, with an empty delivery log. -/
def initSt {σ V : Type} (s : σ) : PSt σ V := ⟨.unstarted s, []⟩

/-- Instrumented run of `gather_processors`: keyed events, final
per-processor records, and the abort error if a processor raised.
`Option.none` when some unwinding loop diverges (fuel exhausted).
Heterogeneous processor collections are represented by giving every
processor the same step function over a combined state type `σ` (for
genuinely different processors, take `σ` to be a sum type) with one
initial state per registered processor, in registration order. -/
def gather_run {σ V ω : Type} (b : Body σ V ω) (fuel : Nat) (inits : List σ)
    (inputs : List V) :
    Option (List (EvKey × ω) × List (PSt σ V) × Option PyErr) :=
  runFeed b fuel 0 (feed inputs) (inits.map initSt)

/-- The observable behaviour of `gather_processors`: the merged event
sequence `(processor index, value)` in yield order, and the uncaught
exception, if any, that aborted the run. -/
def gather_processors {σ V ω : Type} (b : Body σ V ω) (fuel : Nat) (inits : List σ)
    (inputs : List V) : Option (List (Nat × ω) × Option String) :=
  (gather_run b fuel inits inputs).map
    (fun r => (r.1.map (fun ev => (ev.1.2.1, ev.2)), r.2.2.map (fun e => e.2.2)))

/-- The input relay `read_input_lines(sentinel)` as a function of the
sequence of values delivered to its successive awaits (one list entry
per invocation of the suspension primitive `read_input_line`): it
yields each delivered value unchanged until the first delivery that is
the sentinel, which makes it return without yielding. -/
def read_input_lines {V : Type} : List (PyVal V) → List (PyVal V)
  | [] => []
  | d :: rest =>
    match d with
    | .psent => []
    | t => t :: read_input_lines rest

/-- Driver-level step of an async iterable being unwound by
`unwrap_aiter`: one `o.send(None)` on the current `__anext__`
coroutine either raises `StopIteration w` (the generator yielded `w`),
returns normally (the generator suspended at an await), raises
`StopAsyncIteration` (the generator returned), or raises some other
exception. -/
inductive AStep (τ ω : Type) where
  | yieldv (w : ω) (t : τ) : AStep τ ω
  | suspend (t : τ) : AStep τ ω
  | stop : AStep τ ω
  | boom (e : String) : AStep τ ω

/-- An async iterable as seen by the driving loop of `unwrap_aiter`. -/
structure AIter (τ ω : Type) where
  step : τ → AStep τ ω

/-- `wrap_aiter(iterable)`: an async generator that yields each element
of a plain list and never awaits, so each `__anext__` resolves in a
single `send(None)`. -/
def wrap_aiter {α : Type} : AIter (List α) α :=
  ⟨fun xs =>
    match xs with
    | [] => .stop
    | x :: r => .yieldv x r⟩

/-- Final outcome of a synchronous unwinding driven by `unwrap_aiter`:
normal exhaustion, an exception propagated from the driven generator,
or the `IndexError` raised by `unwrap_aiter` itself when it reads
`exn.args[0]` of a `StopIteration` that carries no payload — which is
what CPython produces when the yielded value is `None`. -/
inductive SyncOutcome where
  | ok : SyncOutcome
  | exn (e : String) : SyncOutcome
  | argsError : SyncOutcome
deriving DecidableEq

/-- The error component of a `SyncOutcome`, as the reference direct
execution reports it. -/
def syncOutcomeErr : SyncOutcome → Option String
  | .ok => Option.none
  | .exn e => Option.some e
  | .argsError => Option.some "IndexError"

/-- Pass a batch of yielded values through the `exn.args[0]` read of
`unwrap_aiter`: a `StopIteration` for a yielded value `v` has
`args = (v,)` when `v` is not `None` but `args = ()` when `v` is
`None`, so the first `None` in the batch makes `exn.args[0]` raise
`IndexError`.  Returns the values actually yielded before that point
and whether the `IndexError` occurred. -/
def emitYields {W : Type} : List (PyVal W) → List (PyVal W) × Bool
  | [] => ([], false)
  | w :: ws =>
    match w with
    | .pnull => ([], true)
    | t => (t :: (emitYields ws).1, (emitYields ws).2)

/-- `unwrap_aiter(async_iterable)`: repeatedly `send(None)`, yielding
the payload of every `StopIteration` via `exn.args[0]`, looping on a
normal return (the suspension is resolved with `None` and driving
continues), stopping on `StopAsyncIteration`, and propagating any
other exception after the values already yielded.  A yielded value of
`None` completes the `__anext__` coroutine with a `StopIteration`
whose `args` tuple is empty, so the `exn.args[0]` read raises
`IndexError` and the unwinding aborts there.  Fueled by the number of
`send` calls. -/
def unwrap_aiter {τ W : Type} (m : AIter τ (PyVal W)) :
    Nat → τ → Option (List (PyVal W) × SyncOutcome)
  | 0, _ => Option.none
  | fuel+1, t =>
    match m.step t with
    | .yieldv w t2 =>
      match w with
      | .pnull => Option.some ([], SyncOutcome.argsError)
      | w2 =>
        match unwrap_aiter m fuel t2 with
        | Option.none => Option.none
        | Option.some r => Option.some (w2 :: r.1, r.2)
    | .suspend t2 => unwrap_aiter m fuel t2
    | .stop => Option.some ([], SyncOutcome.ok)
    | .boom e => Option.some ([], SyncOutcome.exn e)

/-- The non-async branch of `syncgenerator`:
`unwrap_aiter(async_generator_function(wrap_aiter(iterable)))`, for a
body abstracted as a `Body` machine over Python output values.
Because `wrap_aiter` never awaits, the composed coroutine never
suspends: every `read` of the body is answered immediately with the
next list element while any remain, and with end-of-stream afterwards.
Every value the body yields passes through the `exn.args[0]` read of
`unwrap_aiter` (`emitYields`), so a yielded `None` aborts the adapted
call with `IndexError` after the values yielded before it.  Fueled by
body segments; a body that loops reading past the end of the input
diverges here exactly as it does in Python. -/
def syncgenerator_run {σ V W : Type} (b : Body σ V (PyVal W)) : Nat → σ → List V →
    Option (List (PyVal W) × SyncOutcome)
  | 0, _, _ => Option.none
  | fuel+1, s, xs =>
    match b.step s with
    | .read ws k =>
      match emitYields ws with
      | (out, true) => Option.some (out, SyncOutcome.argsError)
      | (out, false) =>
        match xs with
        | y :: ys =>
          match syncgenerator_run b fuel (k (Option.some (PyVal.pval y))) ys with
          | Option.none => Option.none
          | Option.some r => Option.some (out ++ r.1, r.2)
        | [] =>
          match syncgenerator_run b fuel (k Option.none) [] with
          | Option.none => Option.none
          | Option.some r => Option.some (out ++ r.1, r.2)
    | .done ws =>
      match emitYields ws with
      | (out, true) => Option.some (out, SyncOutcome.argsError)
      | (out, false) => Option.some (out, SyncOutcome.ok)
    | .raise ws e =>
      match emitYields ws with
      | (out, true) => Option.some (out, SyncOutcome.argsError)
      | (out, false) => Option.some (out, SyncOutcome.exn e)

/-- Reference semantics for the bridging claim, following the words of the
spec: the "direct synchronous execution" of a processor body over a
plain finite sequence feeds the body one element per request, in
order, then signals end-of-input, collecting the yielded outputs in
order; the tail after input exhaustion is the exhausted-input drive. -/
def directRun {σ V ω : Type} (b : Body σ V ω) (fuel : Nat) :
    List V → σ → Option (List ω × Option String)
  | [], s => runExhausted b fuel s
  | y :: ys, s =>
    match b.step s with
    | .read ws k =>
      match directRun b fuel ys (k (Option.some (PyVal.pval y))) with
      | Option.none => Option.none
      | Option.some r => Option.some (ws ++ r.1, r.2)
    | .done ws => Option.some (ws, Option.none)
    | .raise ws e => Option.some (ws, Option.some e)

/-- Strict lexicographic order on event keys: by feed position, then by
processor registration index, then by intra-turn emission index. -/
def keyLt (a b : EvKey) : Prop :=
  a.1 < b.1 ∨ (a.1 = b.1 ∧ (a.2.1 < b.2.1 ∨ (a.2.1 = b.2.1 ∧ a.2.2 < b.2.2)))

/-- States of the example processor `exclaim_async_iterable`: at the
start (about to yield the greeting and enter the loop), resumed with a
fresh line, or at end of input. -/
inductive ExSt where
  | s0 : ExSt
  | got (t : PyVal String) : ExSt
  | eof : ExSt

/-- Loop-head continuation of `exclaim_async_iterable`: the next awaited
element either is a line or signals end of input. -/
def exKont : Option (PyVal String) → ExSt
  | Option.some t => .got t
  | Option.none => .eof

/-- Step function of `exclaim_async_iterable`: yield `Hello world!`,
then for each line yield a report when it ends with `!` and return upon
`Goodbye!`; a non-string line (Python `None` or the sentinel object)
would crash `line.endswith` with an `AttributeError`.  The `%r`
formatting is rendered as plain single-quoting, which agrees with
Python `repr` for lines free of quotes and backslashes; theorems only
evaluate this processor on empty input, where the branch is unused. -/
def exclaimStep : ExSt → BStep ExSt String String
  | .s0 => .read ["Hello world!"] exKont
  | .eof => .done []
  | .got (.pval line) =>
    let out := if line.endsWith "!" then ["Someone yelled \x27" ++ line ++ "\x27"] else []
    if line = "Goodbye!" then .done out else .read out exKont
  | .got _ => .raise [] "AttributeError"

/-- The example processor `exclaim_async_iterable` as a `Body`. -/
def exclaim_async_iterable : Body ExSt String String := ⟨exclaimStep⟩

/-- The token delivered at feed position `p` of a run over `inputs`:
position `0` carries the leading `None`, position `p ≥ 1` carries entry
`p - 1` of `fullLog inputs`. -/
def TokAt {V : Type} (inputs : List V) (p : Nat) (t : PyVal V) : Prop :=
  (p = 0 ∧ t = PyVal.pnull) ∨ (1 ≤ p ∧ (fullLog inputs)[p-1]? = Option.some t)

/-- Scheduler invariant for one processor record before the token at
feed position `p` is delivered: an unstarted coroutine only exists
before the leading `None` (with an empty log); a live waiting coroutine
has been resumed with exactly the first `p - 1` entries of the full
delivery sequence; a terminated coroutine received some initial segment
of them. -/
def Inv {σ V : Type} (inputs : List V) (p : Nat) (st : PSt σ V) : Prop :=
  (∃ s, st.gs = GS.unstarted s ∧ p = 0 ∧ st.log = []) ∨
  (∃ k, st.gs = GS.waiting k ∧ 1 ≤ p ∧ st.log = (fullLog inputs).take (p-1)) ∨
  (st.gs = GS.dead ∧ st.log <+: (fullLog inputs).take (p-1))

/-- Evolution of one processor record across scheduler steps: the
delivery log only grows, and a terminated processor is never touched
again. -/
def StRel {σ V : Type} (a a2 : PSt σ V) : Prop :=
  a.log <+: a2.log ∧ (a.gs = GS.dead → a2 = a)

/-- States of a small test processor used to exercise the theorems on
concrete runs: it emits `100` on startup, echoes every received value,
and emits `99` at end of input. -/
inductive TSt where
  | t0 : TSt
  | seen (n : Nat) : TSt
  | tend : TSt

/-- Loop continuation of the echo test processor. -/
def toyKont : Option (PyVal Nat) → TSt
  | Option.some (PyVal.pval n) => .seen n
  | Option.some _ => .seen 0
  | Option.none => .tend

/-- Step function of the echo test processor. -/
def toyStep : TSt → BStep TSt Nat Nat
  | .t0 => .read [100] toyKont
  | .seen n => .read [n] toyKont
  | .tend => .done [99]

/-- The echo test processor. -/
def toyBody : Body TSt Nat Nat := ⟨toyStep⟩

/-- States of a test processor that terminates early: it echoes values
until it sees `3`, at which point it returns. -/
inductive T2St where
  | u0 : T2St
  | met (n : Nat) : T2St
  | ufin : T2St

/-- Loop continuation of the early-terminating test processor. -/
def toy2Kont : Option (PyVal Nat) → T2St
  | Option.some (PyVal.pval n) => .met n
  | Option.some _ => .met 0
  | Option.none => .ufin

/-- Step function of the early-terminating test processor. -/
def toy2Step : T2St → BStep T2St Nat Nat
  | .u0 => .read [] toy2Kont
  | .met n => if n = 3 then .done [n] else .read [n] toy2Kont
  | .ufin => .done []

/-- The early-terminating test processor. -/
def toy2Body : Body T2St Nat Nat := ⟨toy2Step⟩

/-- States of a test processor that raises on its first received
value. -/
inductive T3St where
  | w0 : T3St
  | wgot : T3St

/-- Step function of the raising test processor: it yields `1` and then
raises an uncaught exception while handling its first value. -/
def toy3Step : T3St → BStep T3St Nat Nat
  | .w0 => .read [] (fun _ => .wgot)
  | .wgot => .raise [1] "boom"

/-- The raising test processor. -/
def toy3Body : Body T3St Nat Nat := ⟨toy3Step⟩

/-- States of a test processor with Python-value outputs, used for the
bridging claims: it emits `100` on startup, echoes every received
element, and emits `99` at end of input. -/
inductive TPSt where
  | p0 : TPSt
  | pgot (t : PyVal Nat) : TPSt
  | pend : TPSt

/-- Loop continuation of the Python-value echo test processor. -/
def toyPyKont : Option (PyVal Nat) → TPSt
  | Option.some t => .pgot t
  | Option.none => .pend

/-- Step function of the Python-value echo test processor. -/
def toyPyStep : TPSt → BStep TPSt Nat (PyVal Nat)
  | .p0 => .read [PyVal.pval 100] toyPyKont
  | .pgot t => .read [t] toyPyKont
  | .pend => .done [PyVal.pval 99]

/-- The Python-value echo test processor. -/
def toyPyBody : Body TPSt Nat (PyVal Nat) := ⟨toyPyStep⟩

/-- A processor body that yields the Python value `None` once and then
returns, without ever consuming input: the smallest body on which the
adapted call hits the `exn.args[0]` `IndexError` while the direct
execution yields `None`. -/
def noneBody : Body Unit Nat (PyVal Nat) := ⟨fun _ => .done [PyVal.pnull]⟩

/-! ### List helpers -/

theorem takeIsPref {α : Type} (l : List α) (n : Nat) : l.take n <+: l :=
  ⟨l.drop n, List.take_append_drop n l⟩

theorem nilIsPref {α : Type} (l : List α) : [] <+: l := ⟨l, rfl⟩

theorem takeIsPrefTake {α : Type} (l : List α) {m n : Nat} (h : m ≤ n) :
    l.take m <+: l.take n := by
  have h2 : (l.take n).take m = l.take m := by
    rw [List.take_take]
    congr 1
    omega
  refine ⟨(l.take n).drop m, ?_⟩
  calc l.take m ++ (l.take n).drop m
      = (l.take n).take m ++ (l.take n).drop m := by rw [h2]
    _ = l.take n := List.take_append_drop m (l.take n)

theorem prefConcatCases {α : Type} {l xs : List α} {x : α} (h : l <+: xs ++ [x]) :
    l = xs ++ [x] ∨ l <+: xs := by
  obtain ⟨t, ht⟩ := h
  cases t with
  | nil => left; simpa using ht
  | cons a t2 =>
    right
    have hlen : l.length ≤ xs.length := by
      have h3 := congrArg List.length ht
      simp at h3
      omega
    have h1 : (l ++ a :: t2).take l.length = l := List.take_left l (a :: t2)
    rw [ht] at h1
    rw [List.take_append_eq_append_take] at h1
    have h4 : l.length - xs.length = 0 := by omega
    rw [h4] at h1
    simp at h1
    rw [← h1]
    exact takeIsPref xs l.length

theorem forall2_getElem {α β : Type} {R : α → β → Prop} {l : List α} {l2 : List β}
    (h : List.Forall₂ R l l2) {j : Nat} {a : α} (hj : l[j]? = Option.some a) :
    ∃ a2, l2[j]? = Option.some a2 ∧ R a a2 := by
  induction h generalizing j with
  | nil => simp at hj
  | cons hr _ ih =>
    cases j with
    | zero =>
      simp at hj
      subst hj
      exact ⟨_, by simp, hr⟩
    | succ j2 =>
      simp only [List.getElem?_cons_succ] at hj ⊢
      exact ih hj

theorem forall2_mem_right {α β : Type} {R : α → β → Prop} {l : List α} {l2 : List β}
    (h : List.Forall₂ R l l2) {a2 : β} (ha : a2 ∈ l2) : ∃ a ∈ l, R a a2 := by
  induction h with
  | nil => simp at ha
  | cons hr _ ih =>
    rcases List.mem_cons.mp ha with h1 | h1
    · subst h1; exact ⟨_, List.mem_cons_self _ _, hr⟩
    · obtain ⟨a, hm, hrel⟩ := ih h1
      exact ⟨a, List.mem_cons_of_mem _ hm, hrel⟩

/-! ### Facts about the effective feed and the full delivery sequence -/

theorem psentNotMemPvals {V : Type} (inputs : List V) :
    PyVal.psent ∉ inputs.map PyVal.pval := by
  simp [List.mem_map]

theorem pnullNotMemFullLog {V : Type} (inputs : List V) :
    PyVal.pnull ∉ fullLog inputs := by
  simp [fullLog, List.mem_map]

theorem fullLog_length {V : Type} (inputs : List V) :
    (fullLog inputs).length = inputs.length + 1 := by
  simp [fullLog]

theorem feed_def {V : Type} (inputs : List V) :
    feed inputs = PyVal.pnull :: fullLog inputs := by
  simp [feed, fullLog, pyChain]

theorem psentMemFeed {V : Type} (inputs : List V) : PyVal.psent ∈ feed inputs := by
  rw [feed_def]
  simp [fullLog]

theorem feed_tokAt {V : Type} (inputs : List V) (q : Nat) (t : PyVal V)
    (h : (feed inputs)[q]? = Option.some t) : TokAt inputs q t := by
  rw [feed_def] at h
  cases q with
  | zero =>
    simp at h
    exact Or.inl ⟨rfl, h.symm⟩
  | succ q2 =>
    refine Or.inr ⟨by omega, ?_⟩
    simpa using h

/-! ### Facts about the scheduler invariant -/

theorem invPrefTake {σ V : Type} {inputs : List V} {p : Nat} {st : PSt σ V}
    (h : Inv inputs p st) : st.log <+: (fullLog inputs).take (p-1) := by
  rcases h with ⟨s, _, _, hl⟩ | ⟨k, _, _, hl⟩ | ⟨_, hl⟩
  · rw [hl]; exact nilIsPref _
  · rw [hl]
  · exact hl

theorem invPref {σ V : Type} {inputs : List V} {p : Nat} {st : PSt σ V}
    (h : Inv inputs p st) : st.log <+: fullLog inputs :=
  (invPrefTake h).trans (takeIsPref _ _)

theorem prefRefl {α : Type} (l : List α) : l <+: l := ⟨[], List.append_nil l⟩

theorem snocPref {α : Type} (l : List α) (x : α) : l <+: l ++ [x] := ⟨[x], rfl⟩

theorem takeSnoc {α : Type} {l : List α} {n : Nat} {x : α}
    (h : l[n]? = Option.some x) : l.take n ++ [x] = l.take (n+1) := by
  rw [List.take_succ, h]
  rfl

/-! ### Behaviour of one delivery (`deliverOne`) under the invariant -/

theorem deliverOne_spec {σ V ω : Type} {b : Body σ V ω} {fuel : Nat} {t : PyVal V}
    {inputs : List V} {p : Nat} {ps : PSt σ V}
    (htok : TokAt inputs p t) (hinv : Inv inputs p ps)
    {ws : List ω} {ps2 : PSt σ V} {oerr : Option String}
    (h : deliverOne b fuel t ps = Option.some (ws, ps2, oerr)) :
    Inv inputs (p+1) ps2 ∧ ps.log <+: ps2.log ∧
    (ps.gs ≠ GS.dead → ps2.log.length = p) ∧
    (ps.gs = GS.dead → ps2 = ps ∧ ws = [] ∧ oerr = Option.none) ∧
    (t = PyVal.psent → ps2.gs = GS.dead) := by
  rcases hinv with ⟨s, hgs, hp, hl⟩ | ⟨k, hgs, hp, hl⟩ | ⟨hgs, hl⟩
  · -- unstarted coroutine: only at feed position 0, token is the leading None
    have ht : t = PyVal.pnull := by
      rcases htok with ⟨_, h1⟩ | ⟨h1, _⟩
      · exact h1
      · omega
    subst ht
    subst hp
    simp only [deliverOne, hgs] at h
    cases hstep : b.step s with
    | read ws2 k2 =>
      rw [hstep] at h
      simp only [Option.some.injEq, Prod.mk.injEq] at h
      obtain ⟨h1, h2, h3⟩ := h
      subst h1
      subst h2
      subst h3
      refine ⟨Or.inr (Or.inl ⟨k2, rfl, by omega, by simpa using hl⟩),
        prefRefl _, fun _ => by simp [hl], fun hd => ?_, fun hts => by simp at hts⟩
      · rw [hgs] at hd
        simp at hd
    | done ws2 =>
      rw [hstep] at h
      simp only [Option.some.injEq, Prod.mk.injEq] at h
      obtain ⟨h1, h2, h3⟩ := h
      subst h1
      subst h2
      subst h3
      refine ⟨Or.inr (Or.inr ⟨rfl, by rw [hl]; exact nilIsPref _⟩),
        prefRefl _, fun _ => by simp [hl], fun hd => ?_, fun _ => rfl⟩
      · rw [hgs] at hd
        simp at hd
    | raise ws2 e =>
      rw [hstep] at h
      simp only [Option.some.injEq, Prod.mk.injEq] at h
      obtain ⟨h1, h2, h3⟩ := h
      subst h1
      subst h2
      subst h3
      refine ⟨Or.inr (Or.inr ⟨rfl, by rw [hl]; exact nilIsPref _⟩),
        prefRefl _, fun _ => by simp [hl], fun hd => ?_, fun _ => rfl⟩
      · rw [hgs] at hd
        simp at hd
  · -- waiting coroutine: the token is entry p-1 of the full delivery sequence
    have ht : (fullLog inputs)[p-1]? = Option.some t := by
      rcases htok with ⟨h1, _⟩ | ⟨_, h1⟩
      · omega
      · exact h1
    have hlen : p - 1 < (fullLog inputs).length := by
      rcases List.getElem?_eq_some.mp ht with ⟨h5, _⟩
      exact h5
    have hlog2 : ps.log ++ [t] = (fullLog inputs).take p := by
      have h6 : p - 1 + 1 = p := by omega
      rw [hl, takeSnoc ht, h6]
    have hlog2len : ((fullLog inputs).take p).length = p := by
      simp only [List.length_take]
      omega
    simp only [deliverOne, hgs] at h
    cases t with
    | psent =>
      cases hre : runExhausted b fuel (k Option.none) with
      | none =>
        rw [hre] at h
        simp at h
      | some r =>
        rw [hre] at h
        simp only [Option.some.injEq, Prod.mk.injEq] at h
        obtain ⟨h1, h2, h3⟩ := h
        subst h1
        subst h2
        subst h3
        refine ⟨Or.inr (Or.inr ⟨rfl, ?_⟩), snocPref _ _, fun _ => ?_, fun hd => ?_,
          fun _ => rfl⟩
        · have h7 : p + 1 - 1 = p := by omega
          rw [h7]
          show ps.log ++ [PyVal.psent] <+: _
          rw [hlog2]
        · show (ps.log ++ [PyVal.psent]).length = p
          rw [hlog2, hlog2len]
        · rw [hgs] at hd
          simp at hd
    | pnull =>
      cases hstep : b.step (k (Option.some PyVal.pnull)) with
      | read ws2 k2 =>
        rw [hstep] at h
        simp only [Option.some.injEq, Prod.mk.injEq] at h
        obtain ⟨h1, h2, h3⟩ := h
        subst h1
        subst h2
        subst h3
        refine ⟨Or.inr (Or.inl ⟨k2, rfl, by omega, ?_⟩), snocPref _ _, fun _ => ?_,
          fun hd => ?_, fun hts => by simp at hts⟩
        · have h7 : p + 1 - 1 = p := by omega
          rw [h7]
          exact hlog2
        · show (ps.log ++ [PyVal.pnull]).length = p
          rw [hlog2, hlog2len]
        · rw [hgs] at hd
          simp at hd
      | done ws2 =>
        rw [hstep] at h
        simp only [Option.some.injEq, Prod.mk.injEq] at h
        obtain ⟨h1, h2, h3⟩ := h
        subst h1
        subst h2
        subst h3
        refine ⟨Or.inr (Or.inr ⟨rfl, ?_⟩), snocPref _ _, fun _ => ?_, fun hd => ?_,
          fun hts => by simp at hts⟩
        · have h7 : p + 1 - 1 = p := by omega
          rw [h7]
          show ps.log ++ [PyVal.pnull] <+: _
          rw [hlog2]
        · show (ps.log ++ [PyVal.pnull]).length = p
          rw [hlog2, hlog2len]
        · rw [hgs] at hd
          simp at hd
      | raise ws2 e =>
        rw [hstep] at h
        simp only [Option.some.injEq, Prod.mk.injEq] at h
        obtain ⟨h1, h2, h3⟩ := h
        subst h1
        subst h2
        subst h3
        refine ⟨Or.inr (Or.inr ⟨rfl, ?_⟩), snocPref _ _, fun _ => ?_, fun hd => ?_,
          fun hts => by simp at hts⟩
        · have h7 : p + 1 - 1 = p := by omega
          rw [h7]
          show ps.log ++ [PyVal.pnull] <+: _
          rw [hlog2]
        · show (ps.log ++ [PyVal.pnull]).length = p
          rw [hlog2, hlog2len]
        · rw [hgs] at hd
          simp at hd
    | pval v =>
      cases hstep : b.step (k (Option.some (PyVal.pval v))) with
      | read ws2 k2 =>
        rw [hstep] at h
        simp only [Option.some.injEq, Prod.mk.injEq] at h
        obtain ⟨h1, h2, h3⟩ := h
        subst h1
        subst h2
        subst h3
        refine ⟨Or.inr (Or.inl ⟨k2, rfl, by omega, ?_⟩), snocPref _ _, fun _ => ?_,
          fun hd => ?_, fun hts => by simp at hts⟩
        · have h7 : p + 1 - 1 = p := by omega
          rw [h7]
          exact hlog2
        · show (ps.log ++ [PyVal.pval v]).length = p
          rw [hlog2, hlog2len]
        · rw [hgs] at hd
          simp at hd
      | done ws2 =>
        rw [hstep] at h
        simp only [Option.some.injEq, Prod.mk.injEq] at h
        obtain ⟨h1, h2, h3⟩ := h
        subst h1
        subst h2
        subst h3
        refine ⟨Or.inr (Or.inr ⟨rfl, ?_⟩), snocPref _ _, fun _ => ?_, fun hd => ?_,
          fun hts => by simp at hts⟩
        · have h7 : p + 1 - 1 = p := by omega
          rw [h7]
          show ps.log ++ [PyVal.pval v] <+: _
          rw [hlog2]
        · show (ps.log ++ [PyVal.pval v]).length = p
          rw [hlog2, hlog2len]
        · rw [hgs] at hd
          simp at hd
      | raise ws2 e =>
        rw [hstep] at h
        simp only [Option.some.injEq, Prod.mk.injEq] at h
        obtain ⟨h1, h2, h3⟩ := h
        subst h1
        subst h2
        subst h3
        refine ⟨Or.inr (Or.inr ⟨rfl, ?_⟩), snocPref _ _, fun _ => ?_, fun hd => ?_,
          fun hts => by simp at hts⟩
        · have h7 : p + 1 - 1 = p := by omega
          rw [h7]
          show ps.log ++ [PyVal.pval v] <+: _
          rw [hlog2]
        · show (ps.log ++ [PyVal.pval v]).length = p
          rw [hlog2, hlog2len]
        · rw [hgs] at hd
          simp at hd
  · -- terminated coroutine: skipped (`if gens[i] is None: continue`)
    simp only [deliverOne, hgs] at h
    simp only [Option.some.injEq, Prod.mk.injEq] at h
    obtain ⟨h1, h2, h3⟩ := h
    subst h1
    subst h2
    subst h3
    refine ⟨Or.inr (Or.inr ⟨hgs, hl.trans (takeIsPrefTake _ (by omega))⟩),
      prefRefl _, fun hnd => absurd hgs hnd, fun _ => ⟨rfl, rfl, rfl⟩, fun _ => hgs⟩

/-! ### Events emitted in one processor turn -/

theorem pairwise_block {ω : Type} (p i : Nat) (ws : List ω) :
    List.Pairwise keyLt ((ws.enum.map (fun jw => ((p, i, jw.1), jw.2))).map Prod.fst) := by
  rw [List.map_map, List.pairwise_map]
  have h1 : List.Pairwise (fun a b : Nat × ω => a.1 < b.1) ws.enum := by
    have h2 : List.Pairwise (fun a b : Nat => a < b) (ws.enum.map Prod.fst) := by
      rw [List.enum_map_fst]
      exact List.pairwise_lt_range ws.length
    rw [List.pairwise_map] at h2
    exact h2
  refine h1.imp ?_
  intro a b hab
  exact Or.inr ⟨rfl, Or.inr ⟨rfl, hab⟩⟩

theorem block_mem {ω : Type} {p i : Nat} {ws : List ω} {ev : EvKey × ω}
    (h : ev ∈ ws.enum.map (fun jw => ((p, i, jw.1), jw.2))) :
    ev.1.1 = p ∧ ev.1.2.1 = i := by
  obtain ⟨jw, _, h2⟩ := List.mem_map.mp h
  subst h2
  exact ⟨rfl, rfl⟩

theorem forall2_same_StRel {σ V : Type} (l : List (PSt σ V)) : List.Forall₂ StRel l l := by
  rw [List.forall₂_same]
  intro a _
  exact ⟨prefRefl _, fun _ => rfl⟩

theorem strel_trans {σ V : Type} {l1 l2 l3 : List (PSt σ V)}
    (h12 : List.Forall₂ StRel l1 l2) (h23 : List.Forall₂ StRel l2 l3) :
    List.Forall₂ StRel l1 l3 := by
  induction h12 generalizing l3 with
  | nil =>
    cases h23
    exact List.Forall₂.nil
  | cons hr hrest ih =>
    cases h23 with
    | cons hr2 hrest2 =>
      refine List.Forall₂.cons ⟨hr.1.trans hr2.1, ?_⟩ (ih hrest2)
      intro hdead
      have h4 := hr.2 hdead
      have h5 := hr2.2 (by rw [h4]; exact hdead)
      exact h5.trans h4

/-- Ordering of the events produced while one token is delivered to the
processors from index `i` on: keys are strictly increasing in the order
(processor index, emission index), all at feed position `p`. -/
theorem stepToken_sorted {σ V ω : Type} {b : Body σ V ω} {fuel p : Nat} {t : PyVal V} :
    ∀ (sts : List (PSt σ V)) (i : Nat) {evs : List (EvKey × ω)} {sts2 : List (PSt σ V)}
      {oerr : Option PyErr},
      stepToken b fuel p t i sts = Option.some (evs, sts2, oerr) →
      List.Pairwise keyLt (evs.map Prod.fst) ∧ ∀ ev ∈ evs, ev.1.1 = p ∧ i ≤ ev.1.2.1 := by
  intro sts
  induction sts with
  | nil =>
    intro i evs sts2 oerr h
    simp only [stepToken, Option.some.injEq, Prod.mk.injEq] at h
    obtain ⟨h1, h2, h3⟩ := h
    subst h1
    simp
  | cons ps rest ih =>
    intro i evs sts2 oerr h
    simp only [stepToken] at h
    cases hd : deliverOne b fuel t ps with
    | none =>
      rw [hd] at h
      simp at h
    | some r =>
      obtain ⟨ws, ps2, oe1⟩ := r
      rw [hd] at h
      cases oe1 with
      | some e =>
        simp only [Option.some.injEq, Prod.mk.injEq] at h
        obtain ⟨h1, h2, h3⟩ := h
        subst h1
        refine ⟨pairwise_block p i ws, ?_⟩
        intro ev hev
        obtain ⟨hp, hi⟩ := block_mem hev
        exact ⟨hp, le_of_eq hi.symm⟩
      | none =>
        cases hrec : stepToken b fuel p t (i+1) rest with
        | none =>
          rw [hrec] at h
          simp at h
        | some r2 =>
          obtain ⟨evs2, rest2, oerr2⟩ := r2
          rw [hrec] at h
          simp only [Option.some.injEq, Prod.mk.injEq] at h
          obtain ⟨h1, h2, h3⟩ := h
          subst h1
          obtain ⟨ihp, ihm⟩ := ih (i+1) hrec
          constructor
          · rw [List.map_append, List.pairwise_append]
            refine ⟨pairwise_block p i ws, ihp, ?_⟩
            intro a ha b2 hb2
            obtain ⟨ev, hevm, h4⟩ := List.mem_map.mp ha
            subst h4
            obtain ⟨ev2, hev2m, h5⟩ := List.mem_map.mp hb2
            subst h5
            obtain ⟨hp1, hi1⟩ := block_mem hevm
            obtain ⟨hp2, hi2⟩ := ihm ev2 hev2m
            exact Or.inr ⟨by rw [hp1, hp2], Or.inl (by rw [hi1]; omega)⟩
          · intro ev hev
            rcases List.mem_append.mp hev with h4 | h4
            · obtain ⟨hp1, hi1⟩ := block_mem h4
              exact ⟨hp1, le_of_eq hi1.symm⟩
            · obtain ⟨hp2, hi2⟩ := ihm ev h4
              exact ⟨hp2, by omega⟩

/-- Behaviour of one full token delivery round under the scheduler
invariant: records evolve by `StRel`; when no exception surfaced, every
record satisfies the invariant for the next position, and a sentinel
token leaves every processor terminated; every event was emitted by a
processor whose log has reached length at least `p`; an exception at
`(p, ie)` leaves every record past index `ie` untouched and bounds the
emitting processors by `ie`; and every record satisfies the invariant
at `p+1` or still at `p`. -/
theorem stepToken_spec {σ V ω : Type} {b : Body σ V ω} {fuel p : Nat} {t : PyVal V}
    {inputs : List V} (htok : TokAt inputs p t) :
    ∀ (sts : List (PSt σ V)) (i : Nat) {evs : List (EvKey × ω)} {sts2 : List (PSt σ V)}
      {oerr : Option PyErr},
      (∀ ps ∈ sts, Inv inputs p ps) →
      stepToken b fuel p t i sts = Option.some (evs, sts2, oerr) →
      List.Forall₂ StRel sts sts2 ∧
      (oerr = Option.none → ∀ ps2 ∈ sts2, Inv inputs (p+1) ps2) ∧
      (oerr = Option.none → t = PyVal.psent → ∀ ps2 ∈ sts2, ps2.gs = GS.dead) ∧
      (∀ ev ∈ evs, i ≤ ev.1.2.1 ∧
        ∃ a2, sts2[ev.1.2.1 - i]? = Option.some a2 ∧ p ≤ a2.log.length) ∧
      (∀ pe ie msg, oerr = Option.some (pe, ie, msg) → pe = p ∧ i ≤ ie ∧
        (∀ ev ∈ evs, ev.1.2.1 ≤ ie) ∧ ∀ j, ie < i + j → sts2[j]? = sts[j]?) ∧
      (∀ ps2 ∈ sts2, Inv inputs (p+1) ps2 ∨ Inv inputs p ps2) := by
  intro sts
  induction sts with
  | nil =>
    intro i evs sts2 oerr hinv h
    simp only [stepToken, Option.some.injEq, Prod.mk.injEq] at h
    obtain ⟨h1, h2, h3⟩ := h
    subst h1
    subst h2
    subst h3
    refine ⟨List.Forall₂.nil, by simp, by simp, by simp, ?_, by simp⟩
    intro pe ie msg hco
    simp at hco
  | cons ps rest ih =>
    intro i evs sts2 oerr hinv h
    simp only [stepToken] at h
    cases hd : deliverOne b fuel t ps with
    | none =>
      rw [hd] at h
      simp at h
    | some r =>
      obtain ⟨ws, ps2, oe1⟩ := r
      rw [hd] at h
      obtain ⟨hInv2, hgrow, hlen, hdeadskip, hsent⟩ :=
        deliverOne_spec htok (hinv ps (List.mem_cons_self ps rest)) hd
      cases oe1 with
      | some e =>
        simp only [Option.some.injEq, Prod.mk.injEq] at h
        obtain ⟨h1, h2, h3⟩ := h
        subst h1
        subst h2
        subst h3
        refine ⟨List.forall₂_cons.mpr ⟨⟨hgrow, fun hdead => (hdeadskip hdead).1⟩,
          forall2_same_StRel rest⟩, ?_, ?_, ?_, ?_, ?_⟩
        · intro hco
          simp at hco
        · intro hco
          simp at hco
        · intro ev hev
          obtain ⟨hp1, hi1⟩ := block_mem hev
          refine ⟨le_of_eq hi1.symm, ?_⟩
          have h4 : ev.1.2.1 - i = 0 := by omega
          rw [h4]
          by_cases hpd : ps.gs = GS.dead
          · obtain ⟨_, hws, _⟩ := hdeadskip hpd
            subst hws
            simp at hev
          · exact ⟨ps2, by simp, le_of_eq (hlen hpd).symm⟩
        · intro pe ie msg heq
          simp only [Option.some.injEq, Prod.mk.injEq] at heq
          obtain ⟨he1, he2, he3⟩ := heq
          subst he1
          subst he2
          refine ⟨rfl, le_refl i, ?_, ?_⟩
          · intro ev hev
            exact le_of_eq (block_mem hev).2
          · intro j hj
            have h5 : 1 ≤ j := by omega
            obtain ⟨j2, h6⟩ : ∃ j2, j = j2 + 1 := ⟨j - 1, by omega⟩
            subst h6
            simp [List.getElem?_cons_succ]
        · intro ps3 hmem
          rcases List.mem_cons.mp hmem with h4 | h4
          · subst h4
            exact Or.inl hInv2
          · exact Or.inr (hinv ps3 (List.mem_cons_of_mem _ h4))
      | none =>
        cases hrec : stepToken b fuel p t (i+1) rest with
        | none =>
          rw [hrec] at h
          simp at h
        | some r2 =>
          obtain ⟨evs2, rest2, oerr2⟩ := r2
          rw [hrec] at h
          simp only [Option.some.injEq, Prod.mk.injEq] at h
          obtain ⟨h1, h2, h3⟩ := h
          subst h1
          subst h2
          subst h3
          obtain ⟨ih1, ih2, ih3, ih4, ih5, ih6⟩ :=
            ih (i+1) (fun x hx => hinv x (List.mem_cons_of_mem _ hx)) hrec
          have hsorted := stepToken_sorted rest (i+1) hrec
          refine ⟨List.forall₂_cons.mpr ⟨⟨hgrow, fun hdead => (hdeadskip hdead).1⟩, ih1⟩,
            ?_, ?_, ?_, ?_, ?_⟩
          · intro ho2 ps3 hmem
            rcases List.mem_cons.mp hmem with h4 | h4
            · subst h4
              exact hInv2
            · exact ih2 ho2 ps3 h4
          · intro ho2 hts ps3 hmem
            rcases List.mem_cons.mp hmem with h4 | h4
            · subst h4
              exact hsent hts
            · exact ih3 ho2 hts ps3 h4
          · intro ev hev
            rcases List.mem_append.mp hev with h4 | h4
            · obtain ⟨hp1, hi1⟩ := block_mem h4
              refine ⟨le_of_eq hi1.symm, ?_⟩
              have h5 : ev.1.2.1 - i = 0 := by omega
              rw [h5]
              by_cases hpd : ps.gs = GS.dead
              · obtain ⟨_, hws, _⟩ := hdeadskip hpd
                subst hws
                simp at h4
              · exact ⟨ps2, by simp, le_of_eq (hlen hpd).symm⟩
            · obtain ⟨hile, a2, ha2, hbound⟩ := ih4 ev h4
              refine ⟨by omega, a2, ?_, hbound⟩
              obtain ⟨j2, h6⟩ : ∃ j2, ev.1.2.1 - i = j2 + 1 := ⟨ev.1.2.1 - (i+1), by omega⟩
              rw [h6]
              rw [List.getElem?_cons_succ]
              have h7 : j2 = ev.1.2.1 - (i+1) := by omega
              rw [h7]
              exact ha2
          · intro pe ie msg heq
            obtain ⟨he1, he2, he3, he4⟩ := ih5 pe ie msg heq
            refine ⟨he1, by omega, ?_, ?_⟩
            · intro ev hev
              rcases List.mem_append.mp hev with h4 | h4
              · have h5 := (block_mem h4).2
                omega
              · exact he3 ev h4
            · intro j hj
              obtain ⟨j2, h6⟩ : ∃ j2, j = j2 + 1 := ⟨j - 1, by omega⟩
              subst h6
              simp only [List.getElem?_cons_succ]
              exact he4 j2 (by omega)
          · intro ps3 hmem
            rcases List.mem_cons.mp hmem with h4 | h4
            · subst h4
              exact Or.inl hInv2
            · exact ih6 ps3 h4

/-- Ordering of all events of a feed run from position `p`: keys are
strictly increasing lexicographically and all carry positions `≥ p`. -/
theorem runFeed_sorted {σ V ω : Type} {b : Body σ V ω} {fuel : Nat} :
    ∀ (ts : List (PyVal V)) (p : Nat) (sts : List (PSt σ V)) {evs : List (EvKey × ω)}
      {sts2 : List (PSt σ V)} {oerr : Option PyErr},
      runFeed b fuel p ts sts = Option.some (evs, sts2, oerr) →
      List.Pairwise keyLt (evs.map Prod.fst) ∧ ∀ ev ∈ evs, p ≤ ev.1.1 := by
  intro ts
  induction ts with
  | nil =>
    intro p sts evs sts2 oerr h
    simp only [runFeed, Option.some.injEq, Prod.mk.injEq] at h
    obtain ⟨h1, h2, h3⟩ := h
    subst h1
    simp
  | cons t ts ih =>
    intro p sts evs sts2 oerr h
    simp only [runFeed] at h
    cases hst : stepToken b fuel p t 0 sts with
    | none =>
      rw [hst] at h
      simp at h
    | some r =>
      obtain ⟨evs1, stsMid, oe⟩ := r
      rw [hst] at h
      obtain ⟨hsp, hsm⟩ := stepToken_sorted sts 0 hst
      cases oe with
      | some e =>
        simp only [Option.some.injEq, Prod.mk.injEq] at h
        obtain ⟨h1, h2, h3⟩ := h
        subst h1
        refine ⟨hsp, ?_⟩
        intro ev hev
        exact le_of_eq (hsm ev hev).1.symm
      | none =>
        dsimp only at h
        cases hrf : runFeed b fuel (p+1) ts stsMid with
        | none =>
          rw [hrf] at h
          simp at h
        | some r2 =>
          obtain ⟨evs2, sts3, oe2⟩ := r2
          rw [hrf] at h
          simp only [Option.some.injEq, Prod.mk.injEq] at h
          obtain ⟨h1, h2, h3⟩ := h
          subst h1
          obtain ⟨ihp, ihm⟩ := ih (p+1) stsMid hrf
          constructor
          · rw [List.map_append, List.pairwise_append]
            refine ⟨hsp, ihp, ?_⟩
            intro a ha b2 hb2
            obtain ⟨ev, hevm, h4⟩ := List.mem_map.mp ha
            subst h4
            obtain ⟨ev2, hev2m, h5⟩ := List.mem_map.mp hb2
            subst h5
            have h6 := (hsm ev hevm).1
            have h7 := ihm ev2 hev2m
            exact Or.inl (by omega)
          · intro ev hev
            rcases List.mem_append.mp hev with h4 | h4
            · exact le_of_eq (hsm ev h4).1.symm
            · have := ihm ev h4
              omega

/-- Main invariant of a feed run from position `p`: records evolve by
`StRel`; an error-free run leaves every record at the invariant for the
final position, and terminates every processor once the sentinel was in
the remaining feed; every event position is bounded by the length of
the final log of the processor that emitted it; after an uncaught
exception at `(pe, ie)`, all event keys are bounded by `(pe, ie)` and
the records past index `ie` still satisfy the invariant at `pe`; and
every final log is an initial segment of the full delivery sequence. -/
theorem runFeed_spec {σ V ω : Type} {b : Body σ V ω} {fuel : Nat} {inputs : List V} :
    ∀ (ts : List (PyVal V)) (p : Nat) (sts : List (PSt σ V)) {evs : List (EvKey × ω)}
      {sts2 : List (PSt σ V)} {oerr : Option PyErr},
      (∀ q t2, ts[q]? = Option.some t2 → TokAt inputs (p + q) t2) →
      (∀ ps ∈ sts, Inv inputs p ps) →
      runFeed b fuel p ts sts = Option.some (evs, sts2, oerr) →
      List.Forall₂ StRel sts sts2 ∧
      (oerr = Option.none → ∀ ps2 ∈ sts2, Inv inputs (p + ts.length) ps2) ∧
      (oerr = Option.none → PyVal.psent ∈ ts → ∀ ps2 ∈ sts2, ps2.gs = GS.dead) ∧
      (∀ ev ∈ evs, ∃ a2, sts2[ev.1.2.1]? = Option.some a2 ∧ ev.1.1 ≤ a2.log.length) ∧
      (∀ pe ie msg, oerr = Option.some (pe, ie, msg) → p ≤ pe ∧
        (∀ ev ∈ evs, ev.1.1 < pe ∨ (ev.1.1 = pe ∧ ev.1.2.1 ≤ ie)) ∧
        (∀ j, ie < j → ∀ a2, sts2[j]? = Option.some a2 → Inv inputs pe a2)) ∧
      (∀ ps2 ∈ sts2, ps2.log <+: fullLog inputs) := by
  intro ts
  induction ts with
  | nil =>
    intro p sts evs sts2 oerr _ hinv h
    simp only [runFeed, Option.some.injEq, Prod.mk.injEq] at h
    obtain ⟨h1, h2, h3⟩ := h
    subst h1
    subst h2
    subst h3
    refine ⟨forall2_same_StRel sts, ?_, by simp, by simp, ?_, ?_⟩
    · intro _ ps2 hm
      simpa using hinv ps2 hm
    · intro pe ie msg hco
      simp at hco
    · intro ps2 hm
      exact invPref (hinv ps2 hm)
  | cons t ts ih =>
    intro p sts evs sts2 oerr HT hinv h
    have htok : TokAt inputs p t := by
      have h0 := HT 0 t (by simp)
      simpa using h0
    have HT2 : ∀ q t2, ts[q]? = Option.some t2 → TokAt inputs ((p+1) + q) t2 := by
      intro q t2 hq
      have h0 := HT (q+1) t2 (by simpa using hq)
      have h5 : p + (q+1) = (p+1) + q := by omega
      rwa [h5] at h0
    simp only [runFeed] at h
    cases hst : stepToken b fuel p t 0 sts with
    | none =>
      rw [hst] at h
      simp at h
    | some r =>
      obtain ⟨evs1, stsMid, oe⟩ := r
      rw [hst] at h
      obtain ⟨st1, st2, st3, st4, st5, st6⟩ := stepToken_spec htok sts 0 hinv hst
      obtain ⟨hsp, hsm⟩ := stepToken_sorted sts 0 hst
      cases oe with
      | some e =>
        simp only [Option.some.injEq, Prod.mk.injEq] at h
        obtain ⟨h1, h2, h3⟩ := h
        subst h1
        subst h2
        subst h3
        obtain ⟨pe0, ie0, msg0⟩ := e
        obtain ⟨se1, se2, se3, se4⟩ := st5 pe0 ie0 msg0 rfl
        refine ⟨st1, ?_, ?_, ?_, ?_, ?_⟩
        · intro hco
          simp at hco
        · intro hco
          simp at hco
        · intro ev hev
          obtain ⟨hile, a2, ha2, hbound⟩ := st4 ev hev
          refine ⟨a2, ?_, ?_⟩
          · simpa using ha2
          · rw [(hsm ev hev).1]
            exact hbound
        · intro pe ie msg heq
          simp only [Option.some.injEq, Prod.mk.injEq] at heq
          obtain ⟨he1, he2, he3⟩ := heq
          subst he1
          subst he2
          refine ⟨le_of_eq se1.symm, ?_, ?_⟩
          · intro ev hev
            exact Or.inr ⟨by rw [(hsm ev hev).1, se1], se3 ev hev⟩
          · intro j hj a2 ha2
            rw [se4 j (by omega)] at ha2
            rw [se1]
            exact hinv a2 (List.getElem?_mem ha2)
        · intro ps2 hm
          rcases st6 ps2 hm with h4 | h4
          · exact invPref h4
          · exact invPref h4
      | none =>
        dsimp only at h
        cases hrf : runFeed b fuel (p+1) ts stsMid with
        | none =>
          rw [hrf] at h
          simp at h
        | some r2 =>
          obtain ⟨evs2, sts3, oe2⟩ := r2
          rw [hrf] at h
          simp only [Option.some.injEq, Prod.mk.injEq] at h
          obtain ⟨h1, h2, h3⟩ := h
          subst h1
          subst h2
          subst h3
          have hinvMid : ∀ ps2 ∈ stsMid, Inv inputs (p+1) ps2 := st2 rfl
          obtain ⟨ih1, ih2, ih3, ih4, ih5, ih6⟩ := ih (p+1) stsMid HT2 hinvMid hrf
          refine ⟨strel_trans st1 ih1, ?_, ?_, ?_, ?_, ih6⟩
          · intro ho2 ps2 hm
            have h5 : p + (t :: ts).length = (p+1) + ts.length := by
              simp only [List.length_cons]
              omega
            rw [h5]
            exact ih2 ho2 ps2 hm
          · intro ho2 hmem ps2 hm
            rcases List.mem_cons.mp hmem with h4 | h4
            · obtain ⟨a, ham, hrel⟩ := forall2_mem_right ih1 hm
              have h6 : a.gs = GS.dead := st3 rfl h4.symm a ham
              rw [hrel.2 h6]
              exact h6
            · exact ih3 ho2 h4 ps2 hm
          · intro ev hev
            rcases List.mem_append.mp hev with h4 | h4
            · obtain ⟨hile, a2, ha2, hbound⟩ := st4 ev h4
              have h6 : stsMid[ev.1.2.1]? = Option.some a2 := by simpa using ha2
              obtain ⟨a3, ha3, hrel⟩ := forall2_getElem ih1 h6
              refine ⟨a3, ha3, ?_⟩
              have h7 := hrel.1.length_le
              rw [(hsm ev h4).1]
              omega
            · exact ih4 ev h4
          · intro pe ie msg heq
            obtain ⟨he1, he2, he3⟩ := ih5 pe ie msg heq
            refine ⟨by omega, ?_, he3⟩
            intro ev hev
            rcases List.mem_append.mp hev with h4 | h4
            · have h5 := (hsm ev h4).1
              exact Or.inl (by omega)
            · exact he2 ev h4

/-! ### Remaining helpers -/

theorem consPref {α : Type} (a : α) {l l2 : List α} (h : l <+: l2) :
    a :: l <+: a :: l2 := by
  obtain ⟨t, ht⟩ := h
  exact ⟨t, by rw [List.cons_append, ht]⟩

theorem feed_HT {V : Type} (inputs : List V) :
    ∀ q t2, (feed inputs)[q]? = Option.some t2 → TokAt inputs (0 + q) t2 := by
  intro q t2 hq
  rw [Nat.zero_add]
  exact feed_tokAt inputs q t2 hq

theorem init_HI {σ V : Type} (inits : List σ) (inputs : List V) :
    ∀ ps ∈ (List.map initSt inits : List (PSt σ V)), Inv inputs 0 ps := by
  intro ps hm
  obtain ⟨s, _, h2⟩ := List.mem_map.mp hm
  subst h2
  exact Or.inl ⟨s, rfl, rfl, rfl⟩

theorem prefFullLogCases {V : Type} {inputs : List V} {l : List (PyVal V)}
    (h : l <+: fullLog inputs) : l = fullLog inputs ∨ l <+: inputs.map PyVal.pval := by
  simp only [fullLog] at h
  rcases prefConcatCases h with h1 | h1
  · exact Or.inl (by rw [fullLog]; exact h1)
  · exact Or.inr h1

theorem countSent_noSent {V : Type} {l : List (PyVal V)} (h : PyVal.psent ∉ l) :
    l.countP isSent = 0 := by
  rw [List.countP_eq_zero]
  intro a ha hsa
  cases a with
  | psent => exact h ha
  | pnull => simp [isSent] at hsa
  | pval v => simp [isSent] at hsa

theorem countSent_fullLog {V : Type} (inputs : List V) :
    (fullLog inputs).countP isSent = 1 := by
  simp only [fullLog, List.countP_append]
  rw [countSent_noSent (psentNotMemPvals inputs)]
  simp [List.countP_cons, isSent]

/-! ### Claim C3: the effective feed -/

/-- C3: for every input sequence, the effective feed the scheduler
iterates over is exactly one leading null token, followed by every
input element in original order, followed by the sentinel — nothing
else and in exactly that order (characterised here position by
position, together with the length pinning down that nothing else is
present). -/
theorem C3_effective_feed {V : Type} (inputs : List V) :
    (feed inputs).length = inputs.length + 2 ∧
    (feed inputs)[0]? = Option.some PyVal.pnull ∧
    (∀ j, j < inputs.length → (feed inputs)[j+1]? = (inputs[j]?).map PyVal.pval) ∧
    (feed inputs).getLast? = Option.some PyVal.psent := by
  refine ⟨?_, ?_, ?_, ?_⟩
  · simp [feed, pyChain]
  · rw [feed_def]
    exact List.getElem?_cons_zero
  · intro j hj
    rw [feed_def, List.getElem?_cons_succ]
    simp only [fullLog]
    rw [List.getElem?_append_left (by simpa using hj)]
    exact List.getElem?_map _ _ _
  · rw [feed_def]
    simp only [fullLog, ← List.cons_append]
    exact List.getLast?_concat _

/-- C3 witness: the feed for the two-element input `[10, 20]`,
evaluated at position 1. -/
theorem C3_effective_feed_w : (feed [10, 20])[0+1]? = ([10, 20][0]?).map PyVal.pval :=
  (C3_effective_feed [10, 20]).2.2.1 0 (by decide)

/-! ### Claim C6: the input relay -/

/-- C6: `read_input_lines sentinel`, viewed as a function of the values
delivered to its successive awaits (one entry per invocation of the
suspension primitive `read_input_line`), yields every delivered value
that is not the sentinel unchanged and in delivery order, and ends,
without yielding the sentinel, the first time the delivered value is
the sentinel: its output is the longest sentinel-free initial segment
of the deliveries, an initial segment of the delivery sequence itself,
free of the sentinel, and never longer than the number of
deliveries. -/
theorem C6_input_relay {V : Type} (ds : List (PyVal V)) :
    read_input_lines ds = ds.takeWhile (fun d => !(isSent d)) ∧
    read_input_lines ds <+: ds ∧
    (∀ d ∈ read_input_lines ds, isSent d = false) ∧
    (read_input_lines ds).length ≤ ds.length := by
  induction ds with
  | nil =>
    exact ⟨rfl, prefRefl _, by simp [read_input_lines], by simp [read_input_lines]⟩
  | cons d rest ih =>
    cases d with
    | psent =>
      refine ⟨by simp [read_input_lines, isSent, List.takeWhile], nilIsPref _,
        by simp [read_input_lines], by simp [read_input_lines]⟩
    | pnull =>
      refine ⟨?_, consPref _ ih.2.1, ?_, ?_⟩
      · show PyVal.pnull :: read_input_lines rest = _
        rw [ih.1]
        simp [List.takeWhile, isSent]
      · intro d2 hd2
        rcases List.mem_cons.mp hd2 with h1 | h1
        · subst h1
          rfl
        · exact ih.2.2.1 d2 h1
      · show (PyVal.pnull :: read_input_lines rest).length ≤ _
        simp only [List.length_cons]
        have := ih.2.2.2
        omega
    | pval v =>
      refine ⟨?_, consPref _ ih.2.1, ?_, ?_⟩
      · show PyVal.pval v :: read_input_lines rest = _
        rw [ih.1]
        simp [List.takeWhile, isSent]
      · intro d2 hd2
        rcases List.mem_cons.mp hd2 with h1 | h1
        · subst h1
          rfl
        · exact ih.2.2.1 d2 h1
      · show (PyVal.pval v :: read_input_lines rest).length ≤ _
        simp only [List.length_cons]
        have := ih.2.2.2
        omega

/-! ### Claim C10: round trip of the two bridging directions -/

/-- C10 counterexample: the round trip is NOT the identity on every
finite plain iterable.  On `[None]`, `wrap_aiter` yields `None`, the
resulting `StopIteration` carries no arguments, and the `exn.args[0]`
read in `unwrap_aiter` raises `IndexError`: the round trip yields
nothing and aborts instead of yielding `[None]`. -/
theorem C10_wrap_unwrap_roundtrip_cx :
    unwrap_aiter wrap_aiter 2 [(PyVal.pnull : PyVal Nat)] =
      Option.some ([], SyncOutcome.argsError) ∧
    ([] : List (PyVal Nat)) ≠ [PyVal.pnull] :=
  ⟨rfl, by decide⟩

/-- C10 (amended): for every finite plain list `xs` containing no
`None` element, `unwrap_aiter (wrap_aiter xs)` yields exactly the
elements of `xs`, in order, with nothing added, dropped or duplicated
(and no exception), for any fuel exceeding the length of `xs`; a `None`
element instead aborts the round trip with the `exn.args[0]`
`IndexError`. -/
theorem C10_wrap_unwrap_roundtrip {W : Type} :
    ∀ (xs : List (PyVal W)) (fuel : Nat), xs.length < fuel → PyVal.pnull ∉ xs →
      unwrap_aiter wrap_aiter fuel xs = Option.some (xs, SyncOutcome.ok) := by
  intro xs
  induction xs with
  | nil =>
    intro fuel hf _
    obtain ⟨f2, rfl⟩ : ∃ f2, fuel = f2 + 1 := ⟨fuel - 1, by omega⟩
    simp [unwrap_aiter, wrap_aiter]
  | cons x r ih =>
    intro fuel hf hnn
    obtain ⟨f2, rfl⟩ : ∃ f2, fuel = f2 + 1 := ⟨fuel - 1, by omega⟩
    have h2 := ih f2 (by simp only [List.length_cons] at hf; omega)
      (fun hc => hnn (List.mem_cons_of_mem _ hc))
    have hx : x ≠ PyVal.pnull := fun hc => hnn (by rw [hc]; exact List.mem_cons_self _ _)
    simp only [unwrap_aiter]
    have hstep : AIter.step wrap_aiter (x :: r) = AStep.yieldv x r := rfl
    rw [hstep]
    dsimp only
    cases x with
    | pnull => exact absurd rfl hx
    | psent =>
      rw [h2]
    | pval v =>
      rw [h2]

/-- C10 witness: the round trip on the concrete `None`-free list
`[pval 1, pval 2]`. -/
theorem C10_wrap_unwrap_roundtrip_w :
    unwrap_aiter wrap_aiter 3 [PyVal.pval 1, PyVal.pval 2] =
      Option.some ([PyVal.pval 1, PyVal.pval 2], SyncOutcome.ok) :=
  C10_wrap_unwrap_roundtrip [PyVal.pval 1, PyVal.pval 2] 3 (by decide) (by decide)


/-! ### Claim C2: total ordering of the merged events -/

/-- C2: in every run of the scheduler, the keyed event sequence —
whose keys record (position of the token in the effective feed,
registration index of the processor, order of emission within that
turn of the processor), and whose projection to (processor index, value)
pairs is the output of `gather_processors` — is strictly increasing in
the lexicographic order `keyLt`; in particular no events of two
different processors interleave within the processing of one token, and all
events a processor emits before its next suspension are yielded before
the scheduler moves on. -/
theorem C2_event_order {σ V ω : Type} (b : Body σ V ω) (fuel : Nat) (inits : List σ)
    (inputs : List V) {evs : List (EvKey × ω)} {sts : List (PSt σ V)} {oerr : Option PyErr}
    (h : gather_run b fuel inits inputs = Option.some (evs, sts, oerr)) :
    List.Pairwise keyLt (evs.map Prod.fst) :=
  (runFeed_sorted (feed inputs) 0 (List.map initSt inits) h).1

/-- C2 witness: the keys of the echo processor run over `[5, 7]`. -/
theorem C2_event_order_w :
    List.Pairwise keyLt (([((0, 0, 0), 100), ((1, 0, 0), 5), ((2, 0, 0), 7),
      ((3, 0, 0), 99)] : List (EvKey × Nat)).map Prod.fst) :=
  C2_event_order toyBody 1 [TSt.t0] [5, 7] rfl

/-! ### Claim C9: the null token is never consumed as data -/

/-- C9: in every scheduler run (aborted or not), the sequence of values
delivered to the awaits of each processor is an initial segment of the
input elements in order followed by the sentinel; in particular the
leading null token is never delivered as the resumption value of any
await — it only ever starts coroutines. -/
theorem C9_null_token_private {σ V ω : Type} (b : Body σ V ω) (fuel : Nat) (inits : List σ)
    (inputs : List V) {evs : List (EvKey × ω)} {sts : List (PSt σ V)} {oerr : Option PyErr}
    (h : gather_run b fuel inits inputs = Option.some (evs, sts, oerr)) :
    ∀ st ∈ sts, st.log <+: fullLog inputs ∧ PyVal.pnull ∉ st.log := by
  obtain ⟨r1, r2, r3, r4, r5, r6⟩ :=
    runFeed_spec (feed inputs) 0 (List.map initSt inits) (feed_HT inputs)
      (init_HI inits inputs) h
  intro st hm
  refine ⟨r6 st hm, fun hmem => ?_⟩
  exact pnullNotMemFullLog inputs ((r6 st hm).subset hmem)

/-- C9 witness: the delivery log of the echo processor run over
`[5, 7]`. -/
theorem C9_null_token_private_w :
    [PyVal.pval 5, PyVal.pval 7, PyVal.psent] <+: fullLog [5, 7] ∧
    PyVal.pnull ∉ [PyVal.pval 5, PyVal.pval 7, PyVal.psent] :=
  C9_null_token_private toyBody 1 [TSt.t0] [5, 7] rfl
    (PSt.mk GS.dead [PyVal.pval 5, PyVal.pval 7, PyVal.psent]) (List.mem_cons_self _ _)

/-! ### Claim C4: the sentinel is delivered exactly once, as the final delivery -/

/-- C4: in every run that completes without an uncaught exception,
every processor ends terminated; no delivery log of any processor contains
the sentinel more than once; and a processor that did receive the
sentinel received the whole input first and the sentinel as its very
last delivery (so it was terminated immediately after that
delivery). -/
theorem C4_sentinel_once {σ V ω : Type} (b : Body σ V ω) (fuel : Nat) (inits : List σ)
    (inputs : List V) {evs : List (EvKey × ω)} {sts : List (PSt σ V)}
    (h : gather_run b fuel inits inputs = Option.some (evs, sts, Option.none)) :
    ∀ st ∈ sts, st.gs = GS.dead ∧ st.log.countP isSent ≤ 1 ∧
      (PyVal.psent ∈ st.log →
        st.log = fullLog inputs ∧ st.log.getLast? = Option.some PyVal.psent) := by
  obtain ⟨r1, r2, r3, r4, r5, r6⟩ :=
    runFeed_spec (feed inputs) 0 (List.map initSt inits) (feed_HT inputs)
      (init_HI inits inputs) h
  intro st hm
  refine ⟨r3 rfl (psentMemFeed inputs) st hm, ?_, ?_⟩
  · rcases prefFullLogCases (r6 st hm) with h1 | h1
    · rw [h1, countSent_fullLog]
    · have h2 : PyVal.psent ∉ st.log := fun hc => psentNotMemPvals inputs (h1.subset hc)
      rw [countSent_noSent h2]
      omega
  · intro hmem
    rcases prefFullLogCases (r6 st hm) with h1 | h1
    · refine ⟨h1, ?_⟩
      rw [h1]
      simp only [fullLog]
      exact List.getLast?_concat _
    · exact absurd (h1.subset hmem) (psentNotMemPvals inputs)

/-- C4 witness: the echo processor run over `[5, 7]`: terminated, with
one sentinel in its log. -/
theorem C4_sentinel_once_w :
    (PSt.mk (GS.dead : GS TSt Nat) [PyVal.pval 5, PyVal.pval 7, PyVal.psent]).gs = GS.dead ∧
    (PSt.mk (GS.dead : GS TSt Nat)
      [PyVal.pval 5, PyVal.pval 7, PyVal.psent]).log.countP isSent ≤ 1 := by
  have h := C4_sentinel_once toyBody 1 [TSt.t0] [5, 7] rfl
    (PSt.mk GS.dead [PyVal.pval 5, PyVal.pval 7, PyVal.psent]) (List.mem_cons_self _ _)
  exact ⟨h.1, h.2.1⟩

/-! ### Claim C5: early termination independence -/

/-- C5: in every error-free run, a processor that terminated early
(i.e. whose delivery log never saw the sentinel) consumed exactly an
initial segment of the input elements — it was never delivered any
later token nor the sentinel — and contributed no events past the feed
position of its terminating delivery, while every processor that did
see the sentinel received every input token and then the sentinel. -/
theorem C5_early_termination {σ V ω : Type} (b : Body σ V ω) (fuel : Nat) (inits : List σ)
    (inputs : List V) {evs : List (EvKey × ω)} {sts : List (PSt σ V)}
    (h : gather_run b fuel inits inputs = Option.some (evs, sts, Option.none)) :
    ∀ i st, sts[i]? = Option.some st → PyVal.psent ∉ st.log →
      st.log <+: inputs.map PyVal.pval ∧
      (∀ ev ∈ evs, ev.1.2.1 = i → ev.1.1 ≤ st.log.length) ∧
      (∀ st2 ∈ sts, PyVal.psent ∈ st2.log → st2.log = fullLog inputs) := by
  obtain ⟨r1, r2, r3, r4, r5, r6⟩ :=
    runFeed_spec (feed inputs) 0 (List.map initSt inits) (feed_HT inputs)
      (init_HI inits inputs) h
  intro i st hi hnos
  refine ⟨?_, ?_, ?_⟩
  · rcases prefFullLogCases (r6 st (List.getElem?_mem hi)) with h1 | h1
    · refine absurd ?_ hnos
      rw [h1]
      simp [fullLog]
    · exact h1
  · intro ev hev hevi
    obtain ⟨a2, ha2, hb⟩ := r4 ev hev
    rw [hevi, hi] at ha2
    have h2 := Option.some.inj ha2
    rw [h2]
    exact hb
  · intro st2 hm2 hmem2
    rcases prefFullLogCases (r6 st2 hm2) with h1 | h1
    · exact h1
    · exact absurd (h1.subset hmem2) (psentNotMemPvals inputs)

/-- C5 witness: the early-terminating processor over `[3, 7]` consumed
only `[3]`. -/
theorem C5_early_termination_w : [PyVal.pval 3] <+: [3, 7].map PyVal.pval := by
  have h := C5_early_termination toy2Body 1 [T2St.u0] [3, 7] rfl 0
    (PSt.mk GS.dead [PyVal.pval 3]) rfl (by decide)
  exact h.1

/-! ### Claim C8: an uncaught exception aborts the whole run -/

/-- C8: when a run ends with an uncaught exception, recorded as raised
by processor `ie` while handling the token at feed position `pe`,
every yielded event comes from a feed position before `pe`, or from
`pe` itself by a processor of index at most `ie` — no later processor
is advanced and no further event is produced, while the events yielded
before the failure are returned unchanged; processors after the raiser
were not delivered the token at `pe` (their logs stop at `pe - 1`);
and the event sequence is still strictly ordered. -/
theorem C8_error_aborts {σ V ω : Type} (b : Body σ V ω) (fuel : Nat) (inits : List σ)
    (inputs : List V) {evs : List (EvKey × ω)} {sts : List (PSt σ V)} {pe ie : Nat}
    {msg : String}
    (h : gather_run b fuel inits inputs = Option.some (evs, sts, Option.some (pe, ie, msg))) :
    (∀ ev ∈ evs, ev.1.1 < pe ∨ (ev.1.1 = pe ∧ ev.1.2.1 ≤ ie)) ∧
    (∀ j, ie < j → ∀ st, sts[j]? = Option.some st →
      st.log <+: (fullLog inputs).take (pe - 1)) ∧
    List.Pairwise keyLt (evs.map Prod.fst) := by
  obtain ⟨r1, r2, r3, r4, r5, r6⟩ :=
    runFeed_spec (feed inputs) 0 (List.map initSt inits) (feed_HT inputs)
      (init_HI inits inputs) h
  obtain ⟨e1, e2, e3⟩ := r5 pe ie msg rfl
  refine ⟨e2, ?_, (runFeed_sorted (feed inputs) 0 (List.map initSt inits) h).1⟩
  intro j hj st hst
  exact invPrefTake (e3 j hj st hst)

/-- C8 witness: the raising processor over `[4]` fails at feed
position 1; its only event is bounded by the failure point. -/
theorem C8_error_aborts_w : (1 : Nat) < 1 ∨ ((1 : Nat) = 1 ∧ (0 : Nat) ≤ 0) := by
  have h := C8_error_aborts toy3Body 1 [T3St.w0] [4] rfl
  exact h.1 ((1, 0, 0), 1) (List.mem_cons_self _ _)

/-! ### Claim C7: concrete empty-input scenarios -/

/-- C7: with no processors and empty input, the scheduler yields no
events; with the example processor `exclaim_async_iterable` alone on
empty input, it yields exactly the single event `(0, "Hello world!")`,
emitted at feed position 0 — before any input token would even be
considered — after which the processor receives the sentinel and
terminates. -/
theorem C7_empty_input :
    (∀ (σ V ω : Type) (b : Body σ V ω) (fuel : Nat),
      gather_processors b fuel [] ([] : List V) =
        Option.some (([] : List (Nat × ω)), Option.none)) ∧
    gather_run exclaim_async_iterable 1 [ExSt.s0] [] =
      Option.some ([((0, 0, 0), "Hello world!")], [PSt.mk GS.dead [PyVal.psent]],
        Option.none) ∧
    gather_processors exclaim_async_iterable 1 [ExSt.s0] [] =
      Option.some ([(0, "Hello world!")], Option.none) := by
  refine ⟨?_, rfl, rfl⟩
  intro σ V ω b fuel
  rfl


/-! ### Claim C1: the bridging adapter is behaviour-preserving -/

theorem runExhausted_mono {σ V ω : Type} {b : Body σ V ω} :
    ∀ (fuel : Nat) (s : σ) (fuel2 : Nat) {r : List ω × Option String},
      runExhausted b fuel s = Option.some r → fuel ≤ fuel2 →
      runExhausted b fuel2 s = Option.some r := by
  intro fuel
  induction fuel with
  | zero =>
    intro s fuel2 r h _
    simp [runExhausted] at h
  | succ f ih =>
    intro s fuel2 r h hle
    obtain ⟨f2, rfl⟩ : ∃ f2, fuel2 = f2 + 1 := ⟨fuel2 - 1, by omega⟩
    simp only [runExhausted] at h ⊢
    cases hstep : b.step s with
    | read ws k =>
      rw [hstep] at h
      dsimp only at h ⊢
      cases hre : runExhausted b f (k Option.none) with
      | none =>
        rw [hre] at h
        simp at h
      | some r2 =>
        rw [hre] at h
        rw [ih (k Option.none) f2 hre (by omega)]
        exact h
    | done ws =>
      rw [hstep] at h
      dsimp only at h ⊢
      exact h
    | raise ws e =>
      rw [hstep] at h
      dsimp only at h ⊢
      exact h

theorem directRun_mono {σ V ω : Type} {b : Body σ V ω} :
    ∀ (xs : List V) (s : σ) (fuel fuel2 : Nat) {r : List ω × Option String},
      directRun b fuel xs s = Option.some r → fuel ≤ fuel2 →
      directRun b fuel2 xs s = Option.some r := by
  intro xs
  induction xs with
  | nil =>
    intro s fuel fuel2 r h hle
    exact runExhausted_mono fuel s fuel2 h hle
  | cons y ys ih =>
    intro s fuel fuel2 r h hle
    simp only [directRun] at h ⊢
    cases hstep : b.step s with
    | read ws k =>
      rw [hstep] at h
      dsimp only at h ⊢
      cases hdr : directRun b fuel ys (k (Option.some (PyVal.pval y))) with
      | none =>
        rw [hdr] at h
        simp at h
      | some r2 =>
        rw [hdr] at h
        rw [ih _ fuel fuel2 hdr hle]
        exact h
    | done ws =>
      rw [hstep] at h
      dsimp only at h ⊢
      exact h
    | raise ws e =>
      rw [hstep] at h
      dsimp only at h ⊢
      exact h

theorem emitYields_clean {W : Type} :
    ∀ (ws : List (PyVal W)) {out : List (PyVal W)},
      emitYields ws = (out, false) → out = ws := by
  intro ws
  induction ws with
  | nil =>
    intro out h
    simp only [emitYields, Prod.mk.injEq] at h
    exact h.1.symm
  | cons w ws ih =>
    intro out h
    cases w with
    | pnull =>
      simp only [emitYields] at h
      simp at h
    | psent =>
      simp only [emitYields, Prod.mk.injEq] at h
      obtain ⟨h1, h2⟩ := h
      have h3 : emitYields ws = ((emitYields ws).1, false) := by
        rw [← h2]
      have h4 := ih h3
      rw [← h1, h4]
    | pval v =>
      simp only [emitYields, Prod.mk.injEq] at h
      obtain ⟨h1, h2⟩ := h
      have h3 : emitYields ws = ((emitYields ws).1, false) := by
        rw [← h2]
      have h4 := ih h3
      rw [← h1, h4]

theorem syncgenerator_run_nil {σ V W : Type} (b : Body σ V (PyVal W)) :
    ∀ (fuel : Nat) (s : σ) (out : List (PyVal W)) (o : SyncOutcome),
      syncgenerator_run b fuel s [] = Option.some (out, o) →
      o ≠ SyncOutcome.argsError →
      runExhausted b fuel s = Option.some (out, syncOutcomeErr o) := by
  intro fuel
  induction fuel with
  | zero =>
    intro s out o h _
    simp [syncgenerator_run] at h
  | succ f ih =>
    intro s out o h hne
    simp only [syncgenerator_run] at h
    simp only [runExhausted]
    cases hstep : b.step s with
    | read ws k =>
      rw [hstep] at h
      dsimp only at h ⊢
      cases hem : emitYields ws with
      | mk out1 crashed =>
        rw [hem] at h
        cases crashed with
        | true =>
          dsimp only at h
          simp only [Option.some.injEq, Prod.mk.injEq] at h
          exact absurd h.2.symm hne
        | false =>
          dsimp only at h
          have hws := emitYields_clean ws hem
          subst hws
          cases hsr : syncgenerator_run b f (k Option.none) [] with
          | none =>
            rw [hsr] at h
            simp at h
          | some r2 =>
            obtain ⟨out2, o2⟩ := r2
            rw [hsr] at h
            dsimp only at h
            simp only [Option.some.injEq, Prod.mk.injEq] at h
            obtain ⟨h1, h2⟩ := h
            have h3 := ih (k Option.none) out2 o2 hsr (by rw [h2]; exact hne)
            rw [h3]
            dsimp only
            rw [h1, h2]
    | done ws =>
      rw [hstep] at h
      dsimp only at h ⊢
      cases hem : emitYields ws with
      | mk out1 crashed =>
        rw [hem] at h
        cases crashed with
        | true =>
          dsimp only at h
          simp only [Option.some.injEq, Prod.mk.injEq] at h
          exact absurd h.2.symm hne
        | false =>
          dsimp only at h
          have hws := emitYields_clean ws hem
          subst hws
          simp only [Option.some.injEq, Prod.mk.injEq] at h
          obtain ⟨h1, h2⟩ := h
          rw [h1, ← h2]
          rfl
    | raise ws e =>
      rw [hstep] at h
      dsimp only at h ⊢
      cases hem : emitYields ws with
      | mk out1 crashed =>
        rw [hem] at h
        cases crashed with
        | true =>
          dsimp only at h
          simp only [Option.some.injEq, Prod.mk.injEq] at h
          exact absurd h.2.symm hne
        | false =>
          dsimp only at h
          have hws := emitYields_clean ws hem
          subst hws
          simp only [Option.some.injEq, Prod.mk.injEq] at h
          obtain ⟨h1, h2⟩ := h
          rw [h1, ← h2]
          rfl

/-- C1 counterexample: the adapted call is NOT equivalent to the direct
execution for every processor body.  For the body that yields the
Python value `None` once and returns, the adapted call
`syncgenerator(body)([])` raises `IndexError` — `unwrap_aiter` reads
`exn.args[0]` of a `StopIteration` whose `args` tuple is empty when
the yielded value is `None` — and yields nothing, while the direct
synchronous execution yields exactly `[None]`. -/
theorem C1_syncgenerator_bridging_cx :
    syncgenerator_run noneBody 1 () [] = Option.some ([], SyncOutcome.argsError) ∧
    directRun noneBody 1 [] () = Option.some ([PyVal.pnull], Option.none) ∧
    ([] : List (PyVal Nat)) ≠ [PyVal.pnull] :=
  ⟨rfl, rfl, by decide⟩

/-- C1 (amended): the non-async branch of `syncgenerator` — running the
body over `wrap_aiter` of a plain finite sequence and unwinding the
resulting async generator synchronously via `unwrap_aiter`, as
embodied by `syncgenerator_run` — produces exactly the outputs (and
exceptional outcome, if any) of the reference direct synchronous
execution of the body over that sequence, element for element and in
the same order, whenever the adapted call terminates without hitting
the `exn.args[0]` `IndexError`, i.e. for every body none of whose
yields reached in the run is the Python value `None`; a `None` yield
instead aborts the adapted call where the direct execution would yield
it. -/
theorem C1_syncgenerator_bridging {σ V W : Type} (b : Body σ V (PyVal W)) :
    ∀ (xs : List V) (fuel : Nat) (s : σ) (out : List (PyVal W)) (o : SyncOutcome),
      syncgenerator_run b fuel s xs = Option.some (out, o) →
      o ≠ SyncOutcome.argsError →
      directRun b fuel xs s = Option.some (out, syncOutcomeErr o) := by
  intro xs
  induction xs with
  | nil =>
    intro fuel s out o h hne
    show runExhausted b fuel s = Option.some (out, syncOutcomeErr o)
    exact syncgenerator_run_nil b fuel s out o h hne
  | cons y ys ih =>
    intro fuel s out o h hne
    obtain ⟨f2, rfl⟩ : ∃ f2, fuel = f2 + 1 := by
      cases fuel with
      | zero => simp [syncgenerator_run] at h
      | succ f => exact ⟨f, rfl⟩
    simp only [syncgenerator_run] at h
    simp only [directRun]
    cases hstep : b.step s with
    | read ws k =>
      rw [hstep] at h
      dsimp only at h ⊢
      cases hem : emitYields ws with
      | mk out1 crashed =>
        rw [hem] at h
        cases crashed with
        | true =>
          dsimp only at h
          simp only [Option.some.injEq, Prod.mk.injEq] at h
          exact absurd h.2.symm hne
        | false =>
          dsimp only at h
          have hws := emitYields_clean ws hem
          subst hws
          cases hsr : syncgenerator_run b f2 (k (Option.some (PyVal.pval y))) ys with
          | none =>
            rw [hsr] at h
            simp at h
          | some r2 =>
            obtain ⟨out2, o2⟩ := r2
            rw [hsr] at h
            dsimp only at h
            simp only [Option.some.injEq, Prod.mk.injEq] at h
            obtain ⟨h1, h2⟩ := h
            have h3 := ih f2 (k (Option.some (PyVal.pval y))) out2 o2 hsr
              (by rw [h2]; exact hne)
            have h4 := directRun_mono ys (k (Option.some (PyVal.pval y))) f2 (f2+1) h3
              (by omega)
            rw [h4]
            dsimp only
            rw [h1, h2]
    | done ws =>
      rw [hstep] at h
      dsimp only at h ⊢
      cases hem : emitYields ws with
      | mk out1 crashed =>
        rw [hem] at h
        cases crashed with
        | true =>
          dsimp only at h
          simp only [Option.some.injEq, Prod.mk.injEq] at h
          exact absurd h.2.symm hne
        | false =>
          dsimp only at h
          have hws := emitYields_clean ws hem
          subst hws
          simp only [Option.some.injEq, Prod.mk.injEq] at h
          obtain ⟨h1, h2⟩ := h
          rw [h1, ← h2]
          rfl
    | raise ws e =>
      rw [hstep] at h
      dsimp only at h ⊢
      cases hem : emitYields ws with
      | mk out1 crashed =>
        rw [hem] at h
        cases crashed with
        | true =>
          dsimp only at h
          simp only [Option.some.injEq, Prod.mk.injEq] at h
          exact absurd h.2.symm hne
        | false =>
          dsimp only at h
          have hws := emitYields_clean ws hem
          subst hws
          simp only [Option.some.injEq, Prod.mk.injEq] at h
          obtain ⟨h1, h2⟩ := h
          rw [h1, ← h2]
          rfl

/-- C1 witness: the Python-value echo processor over the plain
sequence `[2]`, which never yields `None`. -/
theorem C1_syncgenerator_bridging_w :
    directRun toyPyBody 5 [2] TPSt.p0 =
      Option.some ([PyVal.pval 100, PyVal.pval 2, PyVal.pval 99], Option.none) :=
  C1_syncgenerator_bridging toyPyBody [2] 5 TPSt.p0
    [PyVal.pval 100, PyVal.pval 2, PyVal.pval 99] SyncOutcome.ok rfl (by decide)

end AsyncGenFun
